import Mathlib

/-!
Verification of the boundary-assembly / simplification / point-containment core of
the osm-pays-villes importer, shallowly embedded over exact rational arithmetic.

Coordinates are `ℚ × ℚ` pairs `(lon, lat)`.  The Python code computes Euclidean
distances with `math.sqrt`; since `Real.sqrt` is strictly monotone on nonnegative
reals, every comparison of distances in the code is equivalent to the corresponding
comparison of squared distances, so the embedding works with squared distances in
`ℚ` and stays exact and executable.
-/

namespace OsmPV

abbrev Q2 := ℚ × ℚ

/- Batteries marks the `Rat` field operations `@[irreducible]`, which blocks the
`decide`-style evaluation of the executable definitions below on concrete inputs;
locally restoring reducibility lets all concrete computations in this file be
checked by the kernel. -/
attribute [local semireducible] Rat.mul Rat.add Rat.sub Rat.inv

/-! ## Boundary simplifier (`osm_importer/processors/boundary_simplifier.py`) -/

/-- Embedding of `BoundarySimplifier._perpendicular_distance`, returning the SQUARE of
the distance the Python code returns.  The code:
if the line is a point, return the point-to-point distance (here its square);
otherwise return `numerator / sqrt(denominatorSq)` when the denominator is nonzero
and `0` otherwise (here the square `numerator^2 / denominatorSq`). -/
def perpendicular_distance_sq (p ls le : Q2) : ℚ :=
  if ls.1 = le.1 ∧ ls.2 = le.2 then
    (p.1 - ls.1) ^ 2 + (p.2 - ls.2) ^ 2
  else
    let n := |(le.2 - ls.2) * p.1 - (le.1 - ls.1) * p.2 + le.1 * ls.2 - le.2 * ls.1|
    let dsq := (le.2 - ls.2) ^ 2 + (le.1 - ls.1) ^ 2
    if dsq ≠ 0 then n ^ 2 / dsq else 0

/-- The comparison `sqrt dSq > t` made by the code on real distances, expressed on the
squared distance `dSq ≥ 0`: it holds iff `t` is negative or `t^2 < dSq`. -/
abbrev sqrt_gt (dSq t : ℚ) : Prop := t < 0 ∨ t * t < dSq

/-- The `max_distance` / `max_index` scan of `_douglas_peucker_simplify`:
starting from `(0, 0)`, process interior indices `1, …, n` in order and record the
first index attaining the running strict maximum of `d`. -/
def scan_max (d : ℕ → ℚ) : ℕ → ℚ × ℕ
  | 0 => (0, 0)
  | n + 1 =>
    let r := scan_max d n
    if r.1 < d (n + 1) then (d (n + 1), n + 1) else r

/-- Squared distance of the point at index `i` of `c` from the line through the first
and last points of `c` (the anchors used by one call of `_douglas_peucker_simplify`). -/
def anchors_dist (c : List Q2) (i : ℕ) : ℚ :=
  perpendicular_distance_sq (c.getD i (0, 0)) (c.getD 0 (0, 0)) (c.getD (c.length - 1) (0, 0))

/-- The scan of one call of `_douglas_peucker_simplify` over the interior indices
`1, …, length − 2`. -/
def dp_scan (c : List Q2) : ℚ × ℕ := scan_max (anchors_dist c) (c.length - 2)

/-- Fuel-indexed embedding of `BoundarySimplifier._douglas_peucker_simplify`.
The extra bound check `1 ≤ j ∧ j ≤ length − 2` before recursing is the termination
guard of this embedding: the Python recursion descends on `coords[:j+1]` and
`coords[j:]`, which only shrink when the chosen index `j` is a proper interior index.
When the tolerance is nonnegative this is always the case (`scan_guard` below);
for a negative tolerance and all interior points on the anchor line the Python code
recurses on the full list forever (`RecursionError`), which this embedding cuts off
by returning the input. -/
def dp_fuel : ℕ → List Q2 → ℚ → List Q2
  | 0, c, _ => c
  | f + 1, c, t =>
    if c.length ≤ 2 then c
    else if sqrt_gt (dp_scan c).1 t then
      if 1 ≤ (dp_scan c).2 ∧ (dp_scan c).2 ≤ c.length - 2 then
        (dp_fuel f (c.take ((dp_scan c).2 + 1)) t).dropLast ++ dp_fuel f (c.drop (dp_scan c).2) t
      else c
    else [c.getD 0 (0, 0), c.getD (c.length - 1) (0, 0)]

/-- Embedding of `_douglas_peucker_simplify coordinates tolerance`: each recursive
call strictly shrinks the list, so `length` fuel suffices (`dp_fuel_irrel` below). -/
def douglas_peucker (c : List Q2) (t : ℚ) : List Q2 := dp_fuel c.length c t

/-- Embedding of `BoundarySimplifier._to_geojson` on the ring's point list: fewer than
3 points give the empty ring (`"coordinates": [[]]`); otherwise the first point is
appended when the list is not already closed. -/
def to_geojson_ring (c : List Q2) : List Q2 :=
  if c.length < 3 then []
  else if c.head? ≠ c.getLast? then c ++ c.head?.toList
  else c

/-- The simplification pipeline applied to one ring: Douglas-Peucker, then the
GeoJSON serialization step (the last two steps of `simplify_boundary`). -/
def simplify_ring (c : List Q2) (t : ℚ) : List Q2 := to_geojson_ring (douglas_peucker c t)

/-! ## Boundary extractor (`osm_importer/processors/boundary_extractor.py`) -/

/-- Coordinates of one way as computed by the loop in `_build_boundary`: look the way
up in `ways_data`, keep the coordinates of those node ids present in `nodes_data`,
and require at least 2 coordinates. -/
def way_coords (wd : ℕ → Option (List ℕ)) (nd : ℕ → Option Q2) (wid : ℕ) :
    Option (List Q2) :=
  match wd wid with
  | none => none
  | some nids =>
    let cs := nids.filterMap nd
    if 2 ≤ cs.length then some cs else none

/-- First-occurrence deduplication.  `way_coordinates` is a Python dict keyed by way
id: a repeated way id overwrites its (identical) value but keeps its original
position, so the dict's value order is the first-occurrence order of the way ids. -/
def dedup_first_aux (seen : List ℕ) : List ℕ → List ℕ
  | [] => []
  | a :: rest =>
    if a ∈ seen then dedup_first_aux seen rest
    else a :: dedup_first_aux (a :: seen) rest

def dedup_first (l : List ℕ) : List ℕ := dedup_first_aux [] l

/-- The consecutive-duplicate removal loop of `_build_boundary`
(`unique_coords`): keep a point only when it differs from the last kept point. -/
def dedup_consec_aux (last : Q2) : List Q2 → List Q2
  | [] => []
  | c :: rest =>
    if c ≠ last then c :: dedup_consec_aux c rest
    else dedup_consec_aux last rest

def dedup_consec : List Q2 → List Q2
  | [] => []
  | a :: rest => a :: dedup_consec_aux a rest

/-- The closing step of `_build_boundary`: append the first point when there are at
least 3 points and the list is not already closed. -/
def close_ring (u : List Q2) : List Q2 :=
  if 3 ≤ u.length ∧ u.head? ≠ u.getLast? then u ++ u.head?.toList else u

/-- Embedding of `BoundaryExtractor._build_boundary` (the geometry part; logging and
the `country_id` argument omitted).  The ways are converted to coordinate lists in
member order, all coordinate lists are CONCATENATED in that order, consecutive
duplicates are removed, the result is closed, and it is returned only when it has at
least 3 raw points and at least 4 closed points. -/
def build_boundary (ways : List ℕ) (wd : ℕ → Option (List ℕ)) (nd : ℕ → Option Q2) :
    Option (List Q2) :=
  let wcs := (dedup_first ways).filterMap (way_coords wd nd)
  if wcs = [] then none
  else
    let all := wcs.flatten
    if all.length < 3 then none
    else
      let u2 := close_ring (dedup_consec all)
      if u2.length < 4 then none else some u2

/-- Phase 4 of `extract_boundaries_from_file`: build each country's boundary,
keeping only the successful ones (a relation whose `_build_boundary` returns `None`
is skipped and the loop continues with the others). -/
def build_boundaries (cw : List (ℕ × List ℕ)) (wd : ℕ → Option (List ℕ))
    (nd : ℕ → Option Q2) : List (ℕ × List Q2) :=
  match cw with
  | [] => []
  | (cid, ways) :: rest =>
    match build_boundary ways wd nd with
    | some b => (cid, b) :: build_boundaries rest wd nd
    | none => build_boundaries rest wd nd

/-! ## Point containment (`osm_importer/database/operations.py`)

`find_country_for_point` delegates the geometric test to the external Shapely
library: `Polygon(...).contains(Point(lng, lat))`.  Shapely's documented semantics
for `contains` is interior containment: it is `True` iff the point lies in the
interior of the polygon, and in particular it is `False` for a point on the
boundary.  The next definitions model that documented semantics for a simple
polygon given by its (closed) outer ring: even-odd ray crossing parity for
interiority, with points on the boundary excluded. -/

/-- Point `p` lies on the closed segment from `a` to `b` (exact rational test). -/
def on_segment (p a b : Q2) : Bool :=
  decide ((b.1 - a.1) * (p.2 - a.2) = (b.2 - a.2) * (p.1 - a.1)) &&
  decide (min a.1 b.1 ≤ p.1) && decide (p.1 ≤ max a.1 b.1) &&
  decide (min a.2 b.2 ≤ p.2) && decide (p.2 ≤ max a.2 b.2)

/-- The edges of a ring: consecutive pairs of its point list. -/
def ring_edges (poly : List Q2) : List (Q2 × Q2) := poly.zip poly.tail

/-- Whether a horizontal ray from `p` to the right crosses the edge `(a, b)`
(standard even-odd crossing rule; half-open in `y` so shared vertices are counted
once). -/
def crosses (p : Q2) (e : Q2 × Q2) : Bool :=
  let a := e.1
  let b := e.2
  (decide (p.2 < a.2) != decide (p.2 < b.2)) &&
  decide (p.1 < (b.1 - a.1) * (p.2 - a.2) / (b.2 - a.2) + a.1)

def crossing_count (poly : List Q2) (p : Q2) : ℕ :=
  ((ring_edges poly).filter (fun e => crosses p e)).length

def on_boundary (p : Q2) (poly : List Q2) : Bool :=
  (ring_edges poly).any (fun e => on_segment p e.1 e.2)

/-- Model of Shapely's `Polygon(ring).contains(Point p)` (external collaborator,
documented semantics): the point is in the interior — odd crossing parity and not
on the boundary. -/
def shapely_contains (poly : List Q2) (p : Q2) : Bool :=
  !on_boundary p poly && decide (crossing_count poly p % 2 = 1)

/-- Embedding of `DatabaseOperations.find_country_for_point`: scan the cached
geometries in their load (dict insertion) order and return the id of the first
polygon containing `Point(lng, lat)`. -/
def find_country_for_point (geoms : List (ℕ × List Q2)) (lat lng : ℚ) : Option ℕ :=
  geoms.findSome? (fun g => if shapely_contains g.2 (lng, lat) then some g.1 else none)

/-! ## Ring comparison up to rotation and direction (for the order-independence
property of the spec, §8). -/

def ring_core (r : List Q2) : List Q2 := r.dropLast

def rotations (l : List Q2) : List (List Q2) :=
  (List.range l.length).map (fun n => l.rotate n)

/-- Two closed rings are the same ring when, dropping the closing repeat, one core
is a rotation of the other or of its reverse. -/
def ring_equiv (r1 r2 : List Q2) : Prop :=
  ring_core r1 ∈ rotations (ring_core r2) ∨ ring_core r1 ∈ rotations (ring_core r2).reverse

instance (r1 r2 : List Q2) : Decidable (ring_equiv r1 r2) := by
  unfold ring_equiv
  infer_instance

/-! ## Concrete fixtures used by the claim theorems -/

/-- Four two-node ways forming the unit square when stitched by endpoints:
way 1 = A→B, way 2 = C→B, way 3 = C→D, way 4 = A→D. -/
def wdA : ℕ → Option (List ℕ) := fun w =>
  if w = 1 then some [10, 11]
  else if w = 2 then some [12, 11]
  else if w = 3 then some [12, 13]
  else if w = 4 then some [10, 13]
  else none

def ndA : ℕ → Option Q2 := fun n =>
  if n = 10 then some (0, 0)
  else if n = 11 then some (1, 0)
  else if n = 12 then some (1, 1)
  else if n = 13 then some (0, 1)
  else none

/-- Three pairwise disjoint two-node ways (no shared endpoints). -/
def wdB : ℕ → Option (List ℕ) := fun w =>
  if w = 1 then some [10, 11]
  else if w = 2 then some [12, 13]
  else if w = 3 then some [14, 15]
  else none

def ndB : ℕ → Option Q2 := fun n =>
  if n = 10 then some (0, 0)
  else if n = 11 then some (1, 0)
  else if n = 12 then some (2, 1)
  else if n = 13 then some (3, 1)
  else if n = 14 then some (4, 2)
  else if n = 15 then some (5, 2)
  else none

/-- A single three-node way; way id 5 is absent from the data. -/
def wdC : ℕ → Option (List ℕ) := fun w => if w = 1 then some [10, 11, 12] else none

def ndC : ℕ → Option Q2 := ndA

def sq_unit : List Q2 := [(0, 0), (1, 0), (1, 1), (0, 1), (0, 0)]

def sq_big : List Q2 := [(-1, -1), (2, -1), (2, 2), (-1, 2), (-1, -1)]

/-! ## Helper lemmas -/

lemma head_append_of_ne_nil {l r : List Q2} (h : l ≠ []) : (l ++ r).head? = l.head? := by
  cases l with
  | nil => exact absurd rfl h
  | cons a l => rfl

lemma close_ring_closed {u : List Q2} (h : 4 ≤ (close_ring u).length) :
    (close_ring u).head? = (close_ring u).getLast? := by
  unfold close_ring at h ⊢
  by_cases hc : 3 ≤ u.length ∧ u.head? ≠ u.getLast?
  · rw [if_pos hc] at h ⊢
    obtain ⟨a, l, rfl⟩ : ∃ a l, u = a :: l := by
      cases u with
      | nil => simp at hc
      | cons a l => exact ⟨a, l, rfl⟩
    simp only [List.head?_cons, Option.toList_some]
    rw [head_append_of_ne_nil (by simp), List.getLast?_concat]
    rfl
  · rw [if_neg hc] at h ⊢
    rcases not_and_or.mp hc with h3 | heq
    · omega
    · exact not_not.mp heq

/-! ## Properties of the max-distance scan -/

lemma scan_max_nonneg (d : ℕ → ℚ) (n : ℕ) : 0 ≤ (scan_max d n).1 := by
  induction n with
  | zero => exact le_refl 0
  | succ n ih =>
    simp only [scan_max]
    split
    · rename_i hlt
      exact le_of_lt (lt_of_le_of_lt ih hlt)
    · exact ih

lemma scan_max_snd_le (d : ℕ → ℚ) (n : ℕ) : (scan_max d n).2 ≤ n := by
  induction n with
  | zero => exact le_refl 0
  | succ n ih =>
    simp only [scan_max]
    split
    · exact le_refl (n + 1)
    · exact le_trans ih (Nat.le_succ n)

lemma scan_max_le (d : ℕ → ℚ) (n : ℕ) :
    ∀ i, 1 ≤ i → i ≤ n → d i ≤ (scan_max d n).1 := by
  induction n with
  | zero => intro i h1 h0; omega
  | succ n ih =>
    intro i h1 hn
    simp only [scan_max]
    rcases Nat.lt_or_ge i (n + 1) with hi | hi
    · have hle := ih i h1 (by omega)
      split
      · rename_i hlt
        exact le_of_lt (lt_of_le_of_lt hle hlt)
      · exact hle
    · have : i = n + 1 := by omega
      subst this
      split
      · exact le_refl _
      · rename_i hnlt
        exact le_of_not_lt hnlt

lemma scan_max_snd_eq_zero (d : ℕ → ℚ) (n : ℕ)
    (h : (scan_max d n).2 = 0) : (scan_max d n).1 = 0 := by
  induction n with
  | zero => rfl
  | succ n ih =>
    simp only [scan_max] at h ⊢
    split at h
    · exact absurd h (by omega)
    · rename_i hnlt
      rw [if_neg hnlt]
      exact ih h

lemma scan_max_at (d : ℕ → ℚ) (n : ℕ) (h : 1 ≤ (scan_max d n).2) :
    d (scan_max d n).2 = (scan_max d n).1 := by
  induction n with
  | zero => exact absurd h (by simp [scan_max])
  | succ n ih =>
    simp only [scan_max] at h ⊢
    split at h
    · rename_i hlt
      rw [if_pos hlt]
    · rename_i hnlt
      rw [if_neg hnlt]
      exact ih h

lemma scan_max_lt (d : ℕ → ℚ) (n : ℕ) :
    ∀ i, 1 ≤ i → i < (scan_max d n).2 → d i < (scan_max d n).1 := by
  induction n with
  | zero => intro i h1 h0; simp [scan_max] at h0
  | succ n ih =>
    intro i h1 hi
    simp only [scan_max] at hi ⊢
    split at hi
    · rename_i hlt
      rw [if_pos hlt]
      exact lt_of_le_of_lt (scan_max_le d n i h1 (by omega)) hlt
    · rename_i hnlt
      rw [if_neg hnlt]
      exact ih i h1 hi

lemma scan_max_lt_of_all_lt (d : ℕ → ℚ) (n : ℕ) (D : ℚ) (hD : 0 < D)
    (h : ∀ i, 1 ≤ i → i ≤ n → d i < D) : (scan_max d n).1 < D := by
  induction n with
  | zero => exact hD
  | succ n ih =>
    simp only [scan_max]
    split
    · exact h (n + 1) (by omega) (le_refl _)
    · exact ih (fun i h1 hn => h i h1 (by omega))

lemma scan_max_eq (d : ℕ → ℚ) (n : ℕ) (D : ℚ) (j : ℕ) (hj1 : 1 ≤ j) (hjn : j ≤ n)
    (hD : 0 < D) (hdj : d j = D) (hlt : ∀ i, 1 ≤ i → i < j → d i < D)
    (hle : ∀ i, 1 ≤ i → i ≤ n → d i ≤ D) : scan_max d n = (D, j) := by
  induction n with
  | zero => omega
  | succ n ih =>
    rcases Nat.lt_or_ge j (n + 1) with hj | hj
    · have hprev := ih (by omega) (fun i h1 hn => hle i h1 (by omega))
      simp only [scan_max, hprev]
      have hd1 : d (n + 1) ≤ D := hle (n + 1) (by omega) (le_refl _)
      rw [if_neg (not_lt.mpr hd1)]
    · have hj' : j = n + 1 := by omega
      subst hj'
      have hall : ∀ i, 1 ≤ i → i ≤ n → d i < D := fun i h1 hn => hlt i h1 (by omega)
      have hsm := scan_max_lt_of_all_lt d n D hD hall
      simp only [scan_max]
      rw [← hdj] at hsm
      rw [if_pos hsm, hdj]

/-! ## Small list helpers -/

lemma head?_getD_zero {c : List Q2} (h : c ≠ []) : c.head? = some (c.getD 0 (0, 0)) := by
  cases c with
  | nil => exact absurd rfl h
  | cons a l => rfl

lemma getLast?_getD {c : List Q2} (h : c ≠ []) :
    c.getLast? = some (c.getD (c.length - 1) (0, 0)) := by
  rw [List.getLast?_eq_get?, List.getD_eq_get?]
  cases hg : c.get? (c.length - 1) with
  | none =>
    exfalso
    have hpos := List.length_pos.mpr h
    have := List.get?_eq_none.mp hg
    omega
  | some a => rfl

lemma head?_dropLast {l : List Q2} (h : 2 ≤ l.length) : l.dropLast.head? = l.head? := by
  cases l with
  | nil => simp at h
  | cons a l =>
    cases l with
    | nil => simp at h
    | cons b l => rfl

lemma head?_take_pos {l : List Q2} {n : ℕ} (h : 1 ≤ n) : (l.take n).head? = l.head? := by
  rw [List.head?_take, if_neg (by omega)]

lemma take_one_of_head? {l : List Q2} {a : Q2} (h : l.head? = some a) : l.take 1 = [a] := by
  cases l with
  | nil => simp at h
  | cons x l =>
    simp only [List.head?_cons, Option.some_inj] at h
    rw [List.take_cons_succ, List.take_zero, h]

lemma dropLast_concat_getLast? {l : List Q2} {a : Q2} (h : l.getLast? = some a) :
    l.dropLast ++ [a] = l := by
  have hne : l ≠ [] := by
    intro he
    subst he
    simp at h
  have h2 := List.getLast?_eq_getLast l hne
  rw [h2, Option.some_inj] at h
  rw [← h]
  exact List.dropLast_append_getLast hne

lemma getD_zero_of_head? {l : List Q2} {a : Q2} (h : l.head? = some a) :
    l.getD 0 (0, 0) = a := by
  cases l with
  | nil => simp at h
  | cons x l =>
    simp only [List.head?_cons, Option.some_inj] at h
    exact h

lemma getD_of_get? {l : List Q2} {n : ℕ} {a : Q2} (h : l.get? n = some a) :
    l.getD n (0, 0) = a := by
  rw [List.getD_eq_get?, h]
  rfl

lemma getLast?_drop {c : List Q2} {j : ℕ} (h : j < c.length) :
    (c.drop j).getLast? = c.getLast? := by
  rw [List.getLast?_eq_get?, List.getLast?_eq_get?, List.length_drop, List.get?_drop]
  congr 1
  omega

lemma reverse_tail_reverse (l : List Q2) : l.reverse.tail.reverse = l.dropLast := by
  have h := List.dropLast_reverse l.reverse
  rw [List.reverse_reverse] at h
  exact h.symm

lemma sublist_dropLast {l m : List Q2} (h : l.Sublist m) :
    l.dropLast.Sublist m.dropLast := by
  rw [← reverse_tail_reverse l, ← reverse_tail_reverse m]
  exact (h.reverse.tail).reverse

lemma dropLast_take {c : List Q2} {j : ℕ} (h : j + 1 ≤ c.length) :
    (c.take (j + 1)).dropLast = c.take j := by
  rw [List.dropLast_eq_take, List.length_take, min_eq_left h, Nat.add_sub_cancel,
    List.take_take, min_eq_left (Nat.le_succ j)]

lemma two_endpoints_sublist {c : List Q2} (h : 2 ≤ c.length) :
    List.Sublist [c.getD 0 (0, 0), c.getD (c.length - 1) (0, 0)] c := by
  cases c with
  | nil => simp at h
  | cons a l =>
    have hl : l ≠ [] := by
      intro he
      subst he
      simp at h
    have hgd : (a :: l).getD ((a :: l).length - 1) (0, 0) = l.getLast hl := by
      have h1 := getLast?_getD (c := a :: l) (by simp)
      have h2 := List.getLast?_eq_getLast (a :: l) (by simp)
      rw [h1, Option.some_inj] at h2
      rw [h2]
      exact List.getLast_cons hl
    have hgz : (a :: l).getD 0 (0, 0) = a := rfl
    rw [hgd, hgz]
    exact List.cons_sublist_cons.mpr (List.singleton_sublist.mpr (List.getLast_mem hl))

/-! ## Properties of the Douglas-Peucker embedding -/

lemma dp_fuel_irrel : ∀ (f g : ℕ) (c : List Q2) (t : ℚ),
    c.length ≤ f → c.length ≤ g → dp_fuel f c t = dp_fuel g c t := by
  intro f
  induction f with
  | zero =>
    intro g c t hf hg
    have hc : c = [] := by
      cases c with
      | nil => rfl
      | cons a l => simp at hf
    subst hc
    cases g with
    | zero => rfl
    | succ g => simp [dp_fuel]
  | succ f ih =>
    intro g c t hf hg
    cases g with
    | zero =>
      have hc : c = [] := by
        cases c with
        | nil => rfl
        | cons a l => simp at hg
      subst hc
      simp [dp_fuel]
    | succ g =>
      simp only [dp_fuel]
      by_cases h2 : c.length ≤ 2
      · rw [if_pos h2, if_pos h2]
      · rw [if_neg h2, if_neg h2]
        by_cases hgt : sqrt_gt (dp_scan c).1 t
        · rw [if_pos hgt, if_pos hgt]
          by_cases hgd : 1 ≤ (dp_scan c).2 ∧ (dp_scan c).2 ≤ c.length - 2
          · rw [if_pos hgd, if_pos hgd]
            have htk : (c.take ((dp_scan c).2 + 1)).length ≤ (dp_scan c).2 + 1 := by
              rw [List.length_take]
              exact min_le_left _ _
            have hdr : (c.drop (dp_scan c).2).length = c.length - (dp_scan c).2 :=
              List.length_drop _ _
            rw [ih g (c.take ((dp_scan c).2 + 1)) t (by omega) (by omega),
              ih g (c.drop (dp_scan c).2) t (by omega) (by omega)]
          · rw [if_neg hgd, if_neg hgd]
        · rw [if_neg hgt, if_neg hgt]

lemma dp_eq_of_le_two {c : List Q2} {t : ℚ} (h : c.length ≤ 2) :
    douglas_peucker c t = c := by
  unfold douglas_peucker
  cases hL : c.length with
  | zero =>
    have hc : c = [] := List.eq_nil_of_length_eq_zero hL
    subst hc
    rfl
  | succ m =>
    simp only [dp_fuel]
    rw [if_pos h]

lemma dp_collapse {c : List Q2} {t : ℚ} (h2 : ¬ c.length ≤ 2)
    (hgt : ¬ sqrt_gt (dp_scan c).1 t) :
    douglas_peucker c t = [c.getD 0 (0, 0), c.getD (c.length - 1) (0, 0)] := by
  unfold douglas_peucker
  obtain ⟨m, hm⟩ : ∃ m, c.length = m + 1 := ⟨c.length - 1, by omega⟩
  rw [hm]
  simp only [dp_fuel]
  rw [if_neg (hm ▸ h2), if_neg hgt]
  rw [← hm]

lemma dp_rec {c : List Q2} {t : ℚ} (h2 : ¬ c.length ≤ 2)
    (hgt : sqrt_gt (dp_scan c).1 t)
    (hgd : 1 ≤ (dp_scan c).2 ∧ (dp_scan c).2 ≤ c.length - 2) :
    douglas_peucker c t =
      (douglas_peucker (c.take ((dp_scan c).2 + 1)) t).dropLast ++
        douglas_peucker (c.drop (dp_scan c).2) t := by
  conv_lhs => rw [douglas_peucker]
  obtain ⟨m, hm⟩ : ∃ m, c.length = m + 1 := ⟨c.length - 1, by omega⟩
  rw [hm]
  simp only [dp_fuel]
  rw [if_neg (hm ▸ h2), if_pos hgt, if_pos (hm ▸ hgd)]
  have htk : (c.take ((dp_scan c).2 + 1)).length ≤ (dp_scan c).2 + 1 := by
    rw [List.length_take]
    exact min_le_left _ _
  have hdr : (c.drop (dp_scan c).2).length = c.length - (dp_scan c).2 :=
    List.length_drop _ _
  unfold douglas_peucker
  rw [dp_fuel_irrel m (c.take ((dp_scan c).2 + 1)).length (c.take ((dp_scan c).2 + 1)) t
      (by omega) (le_refl _),
    dp_fuel_irrel m (c.drop (dp_scan c).2).length (c.drop (dp_scan c).2) t
      (by omega) (le_refl _)]

lemma dp_fuel_length (f : ℕ) : ∀ (c : List Q2) (t : ℚ),
    2 ≤ c.length → 2 ≤ (dp_fuel f c t).length := by
  induction f with
  | zero =>
    intro c t h
    exact h
  | succ f ih =>
    intro c t h
    simp only [dp_fuel]
    by_cases h2 : c.length ≤ 2
    · rw [if_pos h2]
      exact h
    · rw [if_neg h2]
      by_cases hgt : sqrt_gt (dp_scan c).1 t
      · rw [if_pos hgt]
        by_cases hgd : 1 ≤ (dp_scan c).2 ∧ (dp_scan c).2 ≤ c.length - 2
        · rw [if_pos hgd]
          have hdlen : 2 ≤ (c.drop (dp_scan c).2).length := by
            rw [List.length_drop]
            omega
          have hr := ih (c.drop (dp_scan c).2) t hdlen
          rw [List.length_append]
          omega
        · rw [if_neg hgd]
          exact h
      · rw [if_neg hgt]
        simp

lemma dp_length {c : List Q2} {t : ℚ} (h : 2 ≤ c.length) :
    2 ≤ (douglas_peucker c t).length :=
  dp_fuel_length c.length c t h

lemma dp_fuel_head (f : ℕ) : ∀ (c : List Q2) (t : ℚ),
    (dp_fuel f c t).head? = c.head? := by
  induction f with
  | zero => intro c t; rfl
  | succ f ih =>
    intro c t
    simp only [dp_fuel]
    by_cases h2 : c.length ≤ 2
    · rw [if_pos h2]
    · rw [if_neg h2]
      have hcne : c ≠ [] := by
        intro he
        subst he
        simp at h2
      by_cases hgt : sqrt_gt (dp_scan c).1 t
      · rw [if_pos hgt]
        by_cases hgd : 1 ≤ (dp_scan c).2 ∧ (dp_scan c).2 ≤ c.length - 2
        · rw [if_pos hgd]
          have hL1len : 2 ≤ (c.take ((dp_scan c).2 + 1)).length := by
            rw [List.length_take]
            have h1 := hgd.1
            have h2b := hgd.2
            omega
          have h2L := dp_fuel_length f (c.take ((dp_scan c).2 + 1)) t hL1len
          have hchain : (dp_fuel f (c.take ((dp_scan c).2 + 1)) t).dropLast.head? = c.head? := by
            rw [head?_dropLast h2L, ih (c.take ((dp_scan c).2 + 1)) t,
              head?_take_pos (by omega)]
          rw [List.head?_append, hchain]
          obtain ⟨y, hy⟩ : ∃ y, c.head? = some y := by
            cases c with
            | nil => exact absurd rfl hcne
            | cons a l => exact ⟨a, rfl⟩
          rw [hy]
          rfl
        · rw [if_neg hgd]
      · rw [if_neg hgt]
        rw [head?_getD_zero hcne]
        rfl

lemma dp_fuel_last (f : ℕ) : ∀ (c : List Q2) (t : ℚ),
    (dp_fuel f c t).getLast? = c.getLast? := by
  induction f with
  | zero => intro c t; rfl
  | succ f ih =>
    intro c t
    simp only [dp_fuel]
    by_cases h2 : c.length ≤ 2
    · rw [if_pos h2]
    · rw [if_neg h2]
      have hcne : c ≠ [] := by
        intro he
        subst he
        simp at h2
      by_cases hgt : sqrt_gt (dp_scan c).1 t
      · rw [if_pos hgt]
        by_cases hgd : 1 ≤ (dp_scan c).2 ∧ (dp_scan c).2 ≤ c.length - 2
        · rw [if_pos hgd]
          have hBlast : (dp_fuel f (c.drop (dp_scan c).2) t).getLast? = c.getLast? := by
            rw [ih (c.drop (dp_scan c).2) t]
            exact getLast?_drop (by omega)
          rw [List.getLast?_append, hBlast]
          obtain ⟨y, hy⟩ : ∃ y, c.getLast? = some y := by
            rw [getLast?_getD hcne]
            exact ⟨_, rfl⟩
          rw [hy]
          rfl
        · rw [if_neg hgd]
      · rw [if_neg hgt]
        rw [getLast?_getD hcne]
        simp

lemma dp_fuel_sublist (f : ℕ) : ∀ (c : List Q2) (t : ℚ),
    (dp_fuel f c t).Sublist c := by
  induction f with
  | zero => intro c t; exact List.Sublist.refl c
  | succ f ih =>
    intro c t
    simp only [dp_fuel]
    by_cases h2 : c.length ≤ 2
    · rw [if_pos h2]
    · rw [if_neg h2]
      by_cases hgt : sqrt_gt (dp_scan c).1 t
      · rw [if_pos hgt]
        by_cases hgd : 1 ≤ (dp_scan c).2 ∧ (dp_scan c).2 ≤ c.length - 2
        · rw [if_pos hgd]
          have h1 : ((dp_fuel f (c.take ((dp_scan c).2 + 1)) t).dropLast).Sublist
              (c.take (dp_scan c).2) := by
            have hs := sublist_dropLast (ih (c.take ((dp_scan c).2 + 1)) t)
            rwa [dropLast_take (by omega)] at hs
          have h3 := List.Sublist.append h1 (ih (c.drop (dp_scan c).2) t)
          rwa [List.take_append_drop] at h3
        · rw [if_neg hgd]
      · rw [if_neg hgt]
        exact two_endpoints_sublist (by omega)

lemma dp_scan_eq (c : List Q2) :
    dp_scan c = scan_max (anchors_dist c) (c.length - 2) := rfl

lemma get?_of_lt {l : List Q2} {i : ℕ} (h : i < l.length) :
    l.get? i = some (l.getD i (0, 0)) := by
  cases hg : l.get? i with
  | none =>
    have := List.get?_eq_none.mp hg
    omega
  | some a =>
    rw [getD_of_get? hg]

lemma tail_get? (l : List Q2) (q : ℕ) : l.tail.get? q = l.get? (q + 1) := by
  rw [← List.drop_one, List.get?_drop]
  congr 1
  omega

lemma head?_drop {c : List Q2} {j : ℕ} (h : j < c.length) :
    (c.drop j).head? = some (c.getD j (0, 0)) := by
  have hne : c.drop j ≠ [] := by
    intro he
    have := congrArg List.length he
    rw [List.length_drop] at this
    simp at this
    omega
  rw [head?_getD_zero hne]
  congr 1
  rw [List.getD_eq_get?, List.get?_drop, Nat.add_zero, ← List.getD_eq_get?]

lemma getLast?_take_getD {c : List Q2} {j : ℕ} (h : j + 1 ≤ c.length) :
    (c.take (j + 1)).getLast? = some (c.getD j (0, 0)) := by
  rw [List.getLast?_eq_get?, List.length_take, min_eq_left h, Nat.add_sub_cancel,
    List.get?_take (Nat.lt_succ_self j)]
  exact get?_of_lt (by omega)

lemma tail_dropLast (l : List Q2) : l.dropLast.tail = l.tail.dropLast := by
  cases l with
  | nil => rfl
  | cons a l =>
    cases l with
    | nil => rfl
    | cons b l => rfl

lemma mem_take_get? {l : List Q2} {k : ℕ} {v : Q2} (h : v ∈ l.take k) :
    ∃ q, q < k ∧ l.get? q = some v := by
  obtain ⟨q, hq⟩ := List.mem_iff_get?.mp h
  have hlt : q < (l.take k).length := by
    obtain ⟨hlt, _⟩ := List.get?_eq_some.mp hq
    exact hlt
  rw [List.length_take] at hlt
  have hqk : q < k := lt_of_lt_of_le hlt (min_le_left _ _)
  rw [List.get?_take hqk] at hq
  exact ⟨q, hqk, hq⟩

lemma getD_tail_mem {l : List Q2} {i : ℕ} (h1 : 1 ≤ i) (h2 : i < l.length) :
    l.getD i (0, 0) ∈ l.tail := by
  apply List.get?_mem (n := i - 1)
  rw [tail_get?]
  have : i - 1 + 1 = i := by omega
  rw [this]
  exact get?_of_lt h2

lemma getD_interior_mem {l : List Q2} {i : ℕ} (h1 : 1 ≤ i) (h2 : i + 1 < l.length) :
    l.getD i (0, 0) ∈ l.tail.dropLast := by
  apply List.get?_mem (n := i - 1)
  rw [List.dropLast_eq_take, List.get?_take]
  · rw [tail_get?]
    have : i - 1 + 1 = i := by omega
    rw [this]
    exact get?_of_lt (by omega)
  · rw [List.length_tail]
    omega

lemma interior_take_index {c : List Q2} {j : ℕ} {v : Q2} (hj1 : 1 ≤ j)
    (hj : j + 1 ≤ c.length) (hv : v ∈ (c.take (j + 1)).tail.dropLast) :
    ∃ q, 1 ≤ q ∧ q < j ∧ c.getD q (0, 0) = v := by
  have htail : (c.take (j + 1)).tail = c.tail.take j := by
    rw [← List.drop_one, List.drop_take, ← List.drop_one]
    congr 1
  rw [htail] at hv
  have hdl : (c.tail.take j).dropLast = c.tail.take (j - 1) := by
    have hj' : (j - 1) + 1 = j := by omega
    rw [← hj']
    exact dropLast_take (by rw [List.length_tail]; omega)
  rw [hdl] at hv
  obtain ⟨q, hqk, hq⟩ := mem_take_get? hv
  rw [tail_get?] at hq
  exact ⟨q + 1, by omega, by omega, getD_of_get? hq⟩

lemma interior_drop_index {c : List Q2} {j : ℕ} {v : Q2} (hj : j < c.length)
    (hv : v ∈ (c.drop j).tail.dropLast) :
    ∃ q, j + 1 ≤ q ∧ q + 1 < c.length ∧ c.getD q (0, 0) = v := by
  rw [List.tail_drop] at hv
  rw [List.dropLast_eq_take] at hv
  obtain ⟨q, hqk, hq⟩ := mem_take_get? hv
  rw [List.length_drop] at hqk
  rw [List.get?_drop] at hq
  exact ⟨j + 1 + q, by omega, by omega, getD_of_get? hq⟩

lemma dp_head {c : List Q2} {t : ℚ} : (douglas_peucker c t).head? = c.head? :=
  dp_fuel_head c.length c t

lemma dp_last {c : List Q2} {t : ℚ} : (douglas_peucker c t).getLast? = c.getLast? :=
  dp_fuel_last c.length c t

lemma dp_sublist {c : List Q2} {t : ℚ} : (douglas_peucker c t).Sublist c :=
  dp_fuel_sublist c.length c t

/-- Core idempotence of the Douglas-Peucker pass for nonnegative tolerances:
re-running the recursion on its own output chooses exactly the same split points,
because the kept points' distances from the unchanged anchors are unchanged and the
first maximum is preserved. -/
lemma dp_idem (t : ℚ) (ht : 0 ≤ t) : ∀ (n : ℕ) (c : List Q2), c.length ≤ n →
    douglas_peucker (douglas_peucker c t) t = douglas_peucker c t := by
  intro n
  induction n with
  | zero =>
    intro c hc
    have hcnil : c = [] := by
      cases c with
      | nil => rfl
      | cons a l => simp at hc
    subst hcnil
    rfl
  | succ n ih =>
    intro c hc
    by_cases h2 : c.length ≤ 2
    · rw [dp_eq_of_le_two h2, dp_eq_of_le_two h2]
    · by_cases hgt : sqrt_gt (dp_scan c).1 t
      · -- recursion case
        have hclen : 3 ≤ c.length := by omega
        have hcne : c ≠ [] := by
          intro he
          subst he
          simp at h2
        have hM : t * t < (dp_scan c).1 := hgt.resolve_left (not_lt.mpr ht)
        have hMpos : 0 < (dp_scan c).1 := lt_of_le_of_lt (mul_self_nonneg t) hM
        have hj1 : 1 ≤ (dp_scan c).2 := by
          by_contra hx
          have hx0 : (dp_scan c).2 = 0 := by omega
          have hz := scan_max_snd_eq_zero (anchors_dist c) (c.length - 2) hx0
          rw [← dp_scan_eq] at hz
          exact absurd hz (ne_of_gt hMpos)
        have hj2 : (dp_scan c).2 ≤ c.length - 2 := by
          rw [dp_scan_eq]
          exact scan_max_snd_le _ _
        have hrec := dp_rec h2 hgt ⟨hj1, hj2⟩
        have hL1len : (c.take ((dp_scan c).2 + 1)).length = (dp_scan c).2 + 1 := by
          rw [List.length_take]
          exact min_eq_left (by omega)
        have hR1len : (c.drop (dp_scan c).2).length = c.length - (dp_scan c).2 :=
          List.length_drop _ _
        have hLge2 : 2 ≤ (douglas_peucker (c.take ((dp_scan c).2 + 1)) t).length :=
          dp_length (by omega)
        have hRge2 : 2 ≤ (douglas_peucker (c.drop (dp_scan c).2) t).length :=
          dp_length (by omega)
        have hIHL : douglas_peucker (douglas_peucker (c.take ((dp_scan c).2 + 1)) t) t =
            douglas_peucker (c.take ((dp_scan c).2 + 1)) t :=
          ih (c.take ((dp_scan c).2 + 1)) (by omega)
        have hIHR : douglas_peucker (douglas_peucker (c.drop (dp_scan c).2) t) t =
            douglas_peucker (c.drop (dp_scan c).2) t :=
          ih (c.drop (dp_scan c).2) (by omega)
        -- abbreviations via generalization
        rw [hrec]
        set L := douglas_peucker (c.take ((dp_scan c).2 + 1)) t with hLdef
        set R := douglas_peucker (c.drop (dp_scan c).2) t with hRdef
        have hLlast : L.getLast? = some (c.getD (dp_scan c).2 (0, 0)) := by
          rw [hLdef, dp_last]
          exact getLast?_take_getD (by omega)
        have hRhead : R.head? = some (c.getD (dp_scan c).2 (0, 0)) := by
          rw [hRdef, dp_head]
          exact head?_drop (by omega)
        have hLhead : L.head? = c.head? := by
          rw [hLdef, dp_head]
          exact head?_take_pos (by omega)
        have hRlast : R.getLast? = c.getLast? := by
          rw [hRdef, dp_last]
          exact getLast?_drop (by omega)
        have hyslen : (L.dropLast ++ R).length = L.length - 1 + R.length := by
          rw [List.length_append, List.length_dropLast]
        have hys3 : 3 ≤ (L.dropLast ++ R).length := by omega
        have hdlne : L.dropLast ≠ [] := by
          intro he
          have := congrArg List.length he
          rw [List.length_dropLast] at this
          simp at this
          omega
        have hysHead : (L.dropLast ++ R).head? = c.head? := by
          rw [List.head?_append, head?_dropLast hLge2, hLhead]
          obtain ⟨y, hy⟩ : ∃ y, c.head? = some y := by
            cases c with
            | nil => exact absurd rfl hcne
            | cons a l => exact ⟨a, rfl⟩
          rw [hy]
          rfl
        have hysLast : (L.dropLast ++ R).getLast? = c.getLast? := by
          rw [List.getLast?_append, hRlast]
          rw [getLast?_getD hcne]
          rfl
        have hys0 : (L.dropLast ++ R).getD 0 (0, 0) = c.getD 0 (0, 0) := by
          apply getD_zero_of_head?
          rw [hysHead]
          exact head?_getD_zero hcne
        have hysE : (L.dropLast ++ R).getD ((L.dropLast ++ R).length - 1) (0, 0) =
            c.getD (c.length - 1) (0, 0) := by
          have h1 := getLast?_getD (c := L.dropLast ++ R) (by
            intro he
            have := congrArg List.length he
            rw [hyslen] at this
            simp at this
            omega)
          rw [hysLast, getLast?_getD hcne] at h1
          exact (Option.some_inj.mp h1).symm
        have had : ∀ i, anchors_dist (L.dropLast ++ R) i =
            perpendicular_distance_sq ((L.dropLast ++ R).getD i (0, 0))
              (c.getD 0 (0, 0)) (c.getD (c.length - 1) (0, 0)) := by
          intro i
          unfold anchors_dist
          rw [hys0, hysE]
        have hadc : ∀ i, anchors_dist c i =
            perpendicular_distance_sq (c.getD i (0, 0))
              (c.getD 0 (0, 0)) (c.getD (c.length - 1) (0, 0)) := fun i => rfl
        have hat : anchors_dist c (dp_scan c).2 = (dp_scan c).1 := by
          have := scan_max_at (anchors_dist c) (c.length - 2)
          rw [← dp_scan_eq] at this
          exact this hj1
        -- position of the split point in the output
        have hmid : (L.dropLast ++ R).getD (L.length - 1) (0, 0) =
            c.getD (dp_scan c).2 (0, 0) := by
          rw [List.getD_append_right _ _ _ _ (by rw [List.length_dropLast])]
          rw [List.length_dropLast, Nat.sub_self]
          exact getD_zero_of_head? hRhead
        have hdj : anchors_dist (L.dropLast ++ R) (L.length - 1) = (dp_scan c).1 := by
          rw [had, hmid, ← hadc, hat]
        have hlt : ∀ i, 1 ≤ i → i < L.length - 1 →
            anchors_dist (L.dropLast ++ R) i < (dp_scan c).1 := by
          intro i hi1 hi2
          have hgetd : (L.dropLast ++ R).getD i (0, 0) = L.dropLast.getD i (0, 0) :=
            List.getD_append _ _ _ _ (by rw [List.length_dropLast]; omega)
          have hvmem : L.dropLast.getD i (0, 0) ∈ L.dropLast.tail :=
            getD_tail_mem hi1 (by rw [List.length_dropLast]; omega)
          rw [tail_dropLast] at hvmem
          have hvmem2 : L.dropLast.getD i (0, 0) ∈ (c.take ((dp_scan c).2 + 1)).tail.dropLast :=
            (sublist_dropLast (List.Sublist.tail (hLdef ▸ dp_sublist))).subset hvmem
          obtain ⟨q, hq1, hqj, hqv⟩ := interior_take_index hj1 (by omega) hvmem2
          have hqlt : anchors_dist c q < (dp_scan c).1 := by
            have := scan_max_lt (anchors_dist c) (c.length - 2)
            rw [← dp_scan_eq] at this
            exact this q hq1 hqj
          rw [had, hgetd, ← hqv, ← hadc]
          exact hqlt
        have hle : ∀ i, 1 ≤ i → i ≤ (L.dropLast ++ R).length - 2 →
            anchors_dist (L.dropLast ++ R) i ≤ (dp_scan c).1 := by
          intro i hi1 hi2
          rcases lt_trichotomy i (L.length - 1) with hi | hi | hi
          · exact le_of_lt (hlt i hi1 hi)
          · rw [hi, hdj]
          · have hgetd : (L.dropLast ++ R).getD i (0, 0) =
                R.getD (i - (L.length - 1)) (0, 0) := by
              rw [List.getD_append_right _ _ _ _ (by rw [List.length_dropLast]; omega),
                List.length_dropLast]
            have hr1 : 1 ≤ i - (L.length - 1) := by omega
            have hr2 : i - (L.length - 1) + 1 < R.length := by omega
            have hvmem : R.getD (i - (L.length - 1)) (0, 0) ∈ R.tail.dropLast :=
              getD_interior_mem hr1 hr2
            have hvmem2 : R.getD (i - (L.length - 1)) (0, 0) ∈
                (c.drop (dp_scan c).2).tail.dropLast :=
              (sublist_dropLast (List.Sublist.tail (hRdef ▸ dp_sublist))).subset hvmem
            obtain ⟨q, hq1, hqlen, hqv⟩ := interior_drop_index (by omega) hvmem2
            have hqle : anchors_dist c q ≤ (dp_scan c).1 := by
              have := scan_max_le (anchors_dist c) (c.length - 2)
              rw [← dp_scan_eq] at this
              exact this q (by omega) (by omega)
            rw [had, hgetd, ← hqv, ← hadc]
            exact hqle
        have hscan : dp_scan (L.dropLast ++ R) = ((dp_scan c).1, L.length - 1) := by
          rw [dp_scan_eq]
          exact scan_max_eq (anchors_dist (L.dropLast ++ R)) ((L.dropLast ++ R).length - 2)
            (dp_scan c).1 (L.length - 1) (by omega) (by omega) hMpos hdj hlt hle
        have hgt2 : sqrt_gt (dp_scan (L.dropLast ++ R)).1 t := by
          rw [hscan]
          exact hgt
        have hgd2 : 1 ≤ (dp_scan (L.dropLast ++ R)).2 ∧
            (dp_scan (L.dropLast ++ R)).2 ≤ (L.dropLast ++ R).length - 2 := by
          rw [hscan]
          constructor
          · omega
          · omega
        have hrec2 := dp_rec (c := L.dropLast ++ R) (by omega) hgt2 hgd2
        have hsnd : (dp_scan (L.dropLast ++ R)).2 = L.length - 1 := by
          rw [hscan]
        have htake : (L.dropLast ++ R).take ((L.length - 1) + 1) = L := by
          have hL1 : (L.length - 1) + 1 = L.length := by omega
          rw [hL1, List.take_append_eq_append_take, List.length_dropLast,
            List.take_all_of_le (by rw [List.length_dropLast]; omega)]
          have hone : L.length - (L.length - 1) = 1 := by omega
          rw [hone, take_one_of_head? hRhead]
          exact dropLast_concat_getLast? hLlast
        have hdrop : (L.dropLast ++ R).drop (L.length - 1) = R := by
          have hl : L.length - 1 = L.dropLast.length := (List.length_dropLast L).symm
          rw [hl, List.drop_left]
        rw [hrec2, hsnd, htake, hdrop, hIHL, hIHR]
      · -- collapse case: the output has two points and is fixed
        rw [dp_collapse h2 hgt]
        exact dp_eq_of_le_two (by simp)

/-! ## Claim theorems -/

/-- C10: the perpendicular-distance helper of the simplifier is total and never
divides by zero: its (squared) value is always nonnegative; when the two line
endpoints coincide it falls back to the (squared) point-to-point distance; and in
the division branch the denominator is nonzero, so the guard returning `0` for a
zero denominator is unreachable and no arithmetic error can occur. -/
theorem c10_distance_safe (p ls le : Q2) :
    0 ≤ perpendicular_distance_sq p ls le ∧
    (ls = le → perpendicular_distance_sq p ls le = (p.1 - ls.1) ^ 2 + (p.2 - ls.2) ^ 2) ∧
    (ls ≠ le → (le.2 - ls.2) ^ 2 + (le.1 - ls.1) ^ 2 ≠ 0) := by
  refine ⟨?_, ?_, ?_⟩
  · unfold perpendicular_distance_sq
    dsimp only
    split
    · positivity
    · split
      · positivity
      · exact le_refl 0
  · intro h
    subst h
    simp [perpendicular_distance_sq]
  · intro h hd
    apply h
    have h2 : (le.2 - ls.2) ^ 2 = 0 ∧ (le.1 - ls.1) ^ 2 = 0 := by
      constructor <;> nlinarith [sq_nonneg (le.2 - ls.2), sq_nonneg (le.1 - ls.1)]
    have e1 : ls.1 = le.1 := by nlinarith [h2.2]
    have e2 : ls.2 = le.2 := by nlinarith [h2.1]
    exact Prod.ext e1 e2

/-- C10 witness: the theorem instantiated at concrete points, with the degenerate
branch evaluated. -/
theorem c10_distance_safe_witness :
    0 ≤ perpendicular_distance_sq (3, 4) (0, 0) (2, 0) ∧
    perpendicular_distance_sq (3, 4) (1, 1) (1, 1) = 13 := by
  constructor
  · exact (c10_distance_safe (3, 4) (0, 0) (2, 0)).1
  · have h := (c10_distance_safe (3, 4) (1, 1) (1, 1)).2.1 rfl
    rw [h]
    norm_num

/-- C1 (refuting evaluation): `_build_boundary` does NOT stitch ways by endpoint
matching — at a pool of four ways that form the unit square when stitched
(A→B, C→B, C→D, A→D), it returns exactly the concatenation of the four ways'
coordinate lists in pool order plus the closing repeat, a 9-point sequence that
revisits B and C instead of the stitched 5-point ring [A,B,C,D,A]. -/
theorem c1_concatenation :
    way_coords wdA ndA 1 = some [(0, 0), (1, 0)] ∧
    way_coords wdA ndA 2 = some [(1, 1), (1, 0)] ∧
    way_coords wdA ndA 3 = some [(1, 1), (0, 1)] ∧
    way_coords wdA ndA 4 = some [(0, 0), (0, 1)] ∧
    build_boundary [1, 2, 3, 4] wdA ndA =
      some (([(0, 0), (1, 0)] ++ [(1, 1), (1, 0)] ++ [(1, 1), (0, 1)] ++ [(0, 0), (0, 1)])
        ++ [(0, 0)]) := by
  decide

/-- C5 (refuting evaluation): assembly is order-dependent — permuting the member
list of three disjoint ways yields two rings that are not equal up to rotation and
direction, so the set of produced rings differs. -/
theorem c5_order_dependent :
    build_boundary [1, 2, 3] wdB ndB =
      some [(0, 0), (1, 0), (2, 1), (3, 1), (4, 2), (5, 2), (0, 0)] ∧
    build_boundary [1, 3, 2] wdB ndB =
      some [(0, 0), (1, 0), (4, 2), (5, 2), (2, 1), (3, 1), (0, 0)] ∧
    ¬ ring_equiv [(0, 0), (1, 0), (2, 1), (3, 1), (4, 2), (5, 2), (0, 0)]
        [(0, 0), (1, 0), (4, 2), (5, 2), (2, 1), (3, 1), (0, 0)] := by
  decide

/-- C2 counterexample: at tolerance 2 the square-ish ring [(0,0),(1,0),(0,1),(0,0)]
is simplified to the EMPTY ring — fewer than 4 points and not the original ring, so
there is no fallback to the unsimplified ring. -/
theorem c2_counterexample :
    simplify_ring [(0, 0), (1, 0), (0, 1), (0, 0)] 2 = [] ∧
    (simplify_ring [(0, 0), (1, 0), (0, 1), (0, 0)] 2).length < 4 ∧
    simplify_ring [(0, 0), (1, 0), (0, 1), (0, 0)] 2 ≠ [(0, 0), (1, 0), (0, 1), (0, 0)] := by
  decide

/-- C2 (amended): for every nonnegative tolerance, `simplify` returns either the
empty ring or a closed ring with at least 3 points; when the simplified chain drops
below the validity threshold the result is the reduced (possibly empty or 3-point)
ring, never the original.  (Nonnegativity is required because for a negative
tolerance the Python recursion does not terminate on anchor-collinear chains, see
the `dp_fuel` guard.) -/
theorem c2_amended (c : List Q2) (t : ℚ) (ht : 0 ≤ t) :
    simplify_ring c t = [] ∨
    (3 ≤ (simplify_ring c t).length ∧
      (simplify_ring c t).head? = (simplify_ring c t).getLast?) := by
  unfold simplify_ring to_geojson_ring
  by_cases h3 : (douglas_peucker c t).length < 3
  · left
    rw [if_pos h3]
  · right
    rw [if_neg h3]
    by_cases hne : (douglas_peucker c t).head? ≠ (douglas_peucker c t).getLast?
    · rw [if_pos hne]
      obtain ⟨a, l, he⟩ : ∃ a l, douglas_peucker c t = a :: l := by
        cases hdp : douglas_peucker c t with
        | nil => rw [hdp] at h3; simp at h3
        | cons a l => exact ⟨a, l, rfl⟩
      rw [he]
      simp only [List.head?_cons, Option.toList_some]
      refine ⟨?_, ?_⟩
      · rw [he] at h3
        have hlen : ((a :: l) ++ [a]).length = (a :: l).length + 1 := by
          simp
        omega
      · rw [head_append_of_ne_nil (by simp), List.getLast?_concat]
        rfl
    · rw [if_neg hne]
      exact ⟨by omega, not_not.mp hne⟩

/-- C2 witness: the amended theorem applied at a concrete ring and the concrete
nonnegative tolerance 1. -/
theorem c2_witness :
    (0 : ℚ) ≤ 1 ∧
    (simplify_ring [(0, 0), (1, 0), (0, 1), (0, 0)] 1 = [] ∨
      (3 ≤ (simplify_ring [(0, 0), (1, 0), (0, 1), (0, 0)] 1).length ∧
        (simplify_ring [(0, 0), (1, 0), (0, 1), (0, 0)] 1).head? =
          (simplify_ring [(0, 0), (1, 0), (0, 1), (0, 0)] 1).getLast?)) :=
  ⟨by norm_num, c2_amended [(0, 0), (1, 0), (0, 1), (0, 0)] 1 (by norm_num)⟩

/-- C9 counterexample: the simplification/serialization pipeline produces a CLOSED
ring with only 3 points (first equals last, length 3 < 4), violating the Ring
invariant. -/
theorem c9_counterexample :
    simplify_ring [(0, 0), (2, 0), (1, 1/2), (0, 0)] 1 = [(0, 0), (2, 0), (0, 0)] ∧
    (simplify_ring [(0, 0), (2, 0), (1, 1/2), (0, 0)] 1).head? =
      (simplify_ring [(0, 0), (2, 0), (1, 1/2), (0, 0)] 1).getLast? ∧
    (simplify_ring [(0, 0), (2, 0), (1, 1/2), (0, 0)] 1).length = 3 := by
  decide

/-- C9 (amended): every ring produced by the ASSEMBLY step `_build_boundary`
satisfies the Ring invariant: its first point equals its last point and it has at
least 4 points.  (The simplification/serialization step does not preserve this,
see the counterexample.) -/
theorem c9_amended (ways : List ℕ) (wd : ℕ → Option (List ℕ)) (nd : ℕ → Option Q2)
    (r : List Q2) (h : build_boundary ways wd nd = some r) :
    r.head? = r.getLast? ∧ 4 ≤ r.length := by
  unfold build_boundary at h
  dsimp only at h
  by_cases h1 : (dedup_first ways).filterMap (way_coords wd nd) = []
  · rw [if_pos h1] at h
    exact absurd h (by simp)
  · rw [if_neg h1] at h
    by_cases h2 : ((dedup_first ways).filterMap (way_coords wd nd)).flatten.length < 3
    · rw [if_pos h2] at h
      exact absurd h (by simp)
    · rw [if_neg h2] at h
      by_cases h4 :
          (close_ring (dedup_consec ((dedup_first ways).filterMap (way_coords wd nd)).flatten)).length < 4
      · rw [if_pos h4] at h
        exact absurd h (by simp)
      · rw [if_neg h4] at h
        have hr : r = close_ring (dedup_consec ((dedup_first ways).filterMap (way_coords wd nd)).flatten) :=
          (Option.some_inj.mp h).symm
        subst hr
        exact ⟨close_ring_closed (by omega), by omega⟩

/-- C9 witness: the amended theorem applied to a concrete successful assembly. -/
theorem c9_witness :
    ([(0, 0), (1, 0), (1, 1), (0, 0)] : List Q2).head? =
      ([(0, 0), (1, 0), (1, 1), (0, 0)] : List Q2).getLast? ∧
    4 ≤ ([(0, 0), (1, 0), (1, 1), (0, 0)] : List Q2).length :=
  c9_amended [1] wdC ndC [(0, 0), (1, 0), (1, 1), (0, 0)] (by decide)

/-- C8 counterexample: a relation whose assembly fails (its only way is absent from
the data) yields NO entry at all in the result — in particular no Boundary with an
empty polygon list — while the following relation is still processed. -/
theorem c8_counterexample :
    build_boundary [5] wdC ndC = none ∧
    build_boundaries [(1, [5]), (2, [1])] wdC ndC = [(2, [(0, 0), (1, 0), (1, 1), (0, 0)])] ∧
    (build_boundaries [(1, [5]), (2, [1])] wdC ndC).lookup 1 = none := by
  decide

/-- C8 (amended): a relation whose boundary cannot be built is silently skipped and
never interrupts the processing of the remaining relations: the result for the rest
of the list is exactly what it would have been without the failed relation. -/
theorem c8_amended (cid : ℕ) (ways : List ℕ) (rest : List (ℕ × List ℕ))
    (wd : ℕ → Option (List ℕ)) (nd : ℕ → Option Q2)
    (h : build_boundary ways wd nd = none) :
    build_boundaries ((cid, ways) :: rest) wd nd = build_boundaries rest wd nd := by
  have hstep : build_boundaries ((cid, ways) :: rest) wd nd =
      match build_boundary ways wd nd with
      | some b => (cid, b) :: build_boundaries rest wd nd
      | none => build_boundaries rest wd nd := rfl
  rw [hstep, h]

/-- C8 witness: the amended theorem applied to a concrete failing relation. -/
theorem c8_witness :
    build_boundaries [(1, [5]), (2, [1])] wdC ndC = build_boundaries [(2, [1])] wdC ndC :=
  c8_amended 1 [5] [(2, [1])] wdC ndC (by decide)

/-- C3 counterexample: the point (1/2, 0) lies exactly on the bottom edge of the
unit square, yet `find_country_for_point` returns `none` for an index holding only
that square — the containment test is edge-EXCLUSIVE (Shapely `contains`), not
edge-inclusive. -/
theorem c3_counterexample :
    on_boundary (1/2, 0) sq_unit = true ∧
    shapely_contains sq_unit (1/2, 0) = false ∧
    find_country_for_point [(7, sq_unit)] 0 (1/2) = none := by
  decide

/-- C3 (amended): a point exactly on a ring edge is NOT treated as contained: when
the query point lies on the boundary of every loaded polygon (so that no other
polygon claims it), `locate` returns `none` rather than the edge-owning polygon's
id. -/
theorem c3_amended (geoms : List (ℕ × List Q2)) (lat lng : ℚ)
    (h : ∀ g ∈ geoms, on_boundary (lng, lat) g.2 = true) :
    find_country_for_point geoms lat lng = none := by
  induction geoms with
  | nil => rfl
  | cons g rest ih =>
    have hc : shapely_contains g.2 (lng, lat) = false := by
      have hg := h g (List.mem_cons_self g rest)
      unfold shapely_contains
      rw [hg]
      rfl
    have hrest : ∀ x ∈ rest, on_boundary (lng, lat) x.2 = true :=
      fun x hx => h x (List.mem_cons_of_mem g hx)
    unfold find_country_for_point at ih ⊢
    rw [List.findSome?_cons]
    simp only [hc, Bool.false_eq_true, if_false]
    exact ih hrest

/-- C3 witness: the amended theorem applied to an edge point of a concrete square. -/
theorem c3_witness : find_country_for_point [(9, sq_unit)] (1/2) 0 = none :=
  c3_amended [(9, sq_unit)] (1/2) 0 (by decide)

/-- C4 counterexample: two overlapping polygons with ids 5 and 3 both contain the
query point; loaded in the order [5, 3], `find_country_for_point` returns 5 — the
first match in LOAD order — not the ascending-id-smallest match 3, so the result is
not independent of the order in which the boundaries were loaded. -/
theorem c4_counterexample :
    shapely_contains sq_big (1/2, 1/2) = true ∧
    shapely_contains sq_unit (1/2, 1/2) = true ∧
    find_country_for_point [(5, sq_big), (3, sq_unit)] (1/2) (1/2) = some 5 ∧
    (3 : ℕ) < 5 := by
  decide

/-- C4 (amended): `find_country_for_point` returns the first match in the order the
geometry cache was populated; only when the cache happens to be loaded in strictly
ascending id order is the returned id the smallest among all matches. -/
theorem c4_amended (geoms : List (ℕ × List Q2)) (lat lng : ℚ)
    (hs : List.Pairwise (fun a b => a.1 < b.1) geoms)
    (hm : ∃ g ∈ geoms, shapely_contains g.2 (lng, lat) = true) :
    ∃ m, find_country_for_point geoms lat lng = some m ∧
      ∀ g ∈ geoms, shapely_contains g.2 (lng, lat) = true → m ≤ g.1 := by
  induction geoms with
  | nil => obtain ⟨g, hg, _⟩ := hm; exact absurd hg (List.not_mem_nil g)
  | cons a rest ih =>
    by_cases ha : shapely_contains a.2 (lng, lat) = true
    · refine ⟨a.1, ?_, ?_⟩
      · unfold find_country_for_point
        rw [List.findSome?_cons]
        simp only [ha, if_true]
      · intro g hg _
        rcases List.mem_cons.mp hg with heq | hg
        · rw [heq]
        · exact le_of_lt (List.rel_of_pairwise_cons hs hg)
    · have hm' : ∃ g ∈ rest, shapely_contains g.2 (lng, lat) = true := by
        obtain ⟨g, hg, hgc⟩ := hm
        rcases List.mem_cons.mp hg with heq | hg
        · rw [heq] at hgc
          exact absurd hgc ha
        · exact ⟨g, hg, hgc⟩
      obtain ⟨m, hfind, hmin⟩ := ih (List.Pairwise.of_cons hs) hm'
      refine ⟨m, ?_, ?_⟩
      · unfold find_country_for_point at hfind ⊢
        rw [List.findSome?_cons]
        simp only [ha, Bool.false_eq_true, if_false]
        exact hfind
      · intro g hg hgc
        rcases List.mem_cons.mp hg with heq | hg
        · rw [heq] at hgc
          exact absurd hgc ha
        · exact hmin g hg hgc

/-- C4 witness: the amended theorem applied to an ascending-order load of the two
overlapping squares. -/
theorem c4_witness :
    ∃ m, find_country_for_point [(3, sq_unit), (5, sq_big)] (1/2) (1/2) = some m ∧
      ∀ g ∈ [(3, sq_unit), (5, sq_big)], shapely_contains g.2 (1/2, 1/2) = true → m ≤ g.1 :=
  c4_amended [(3, sq_unit), (5, sq_big)] (1/2) (1/2) (by decide) (by decide)

/-- C6 counterexample: at tolerance 0 the collinear interior point (1,0) — which is
not a coincident duplicate (the ring's core has no duplicate points at all) — is
dropped, so `simplify(ring, 0)` is not the ring unchanged. -/
theorem c6_counterexample :
    simplify_ring [(0, 0), (1, 0), (2, 0), (2, 2), (0, 0)] 0 =
      [(0, 0), (2, 0), (2, 2), (0, 0)] ∧
    simplify_ring [(0, 0), (1, 0), (2, 0), (2, 2), (0, 0)] 0 ≠
      [(0, 0), (1, 0), (2, 0), (2, 2), (0, 0)] ∧
    ([(0, 0), (1, 0), (2, 0), (2, 2)] : List Q2).Nodup := by
  decide

/-- C6 (amended): at tolerance 0 the simplifier returns a SUBSEQUENCE of a closed
ring, preserving its endpoints (or the empty ring when fewer than 3 points
survive): zero tolerance may drop interior points lying exactly on the local
anchor lines — collinear points, not only coincident duplicates. -/
theorem c6_amended (c : List Q2) (h : c.head? = c.getLast?) :
    List.Sublist (simplify_ring c 0) c ∧
    (simplify_ring c 0 = [] ∨
      ((simplify_ring c 0).head? = c.head? ∧
        (simplify_ring c 0).getLast? = c.getLast?)) := by
  unfold simplify_ring to_geojson_ring
  by_cases h3 : (douglas_peucker c 0).length < 3
  · rw [if_pos h3]
    exact ⟨List.nil_sublist c, Or.inl rfl⟩
  · rw [if_neg h3]
    have hcl : (douglas_peucker c 0).head? = (douglas_peucker c 0).getLast? := by
      rw [dp_head, dp_last]
      exact h
    rw [if_neg (not_not_intro hcl)]
    exact ⟨dp_sublist, Or.inr ⟨dp_head, dp_last⟩⟩

/-- C6 witness: the amended theorem applied to the closed unit-square ring. -/
theorem c6_witness :
    sq_unit.head? = sq_unit.getLast? ∧
    (List.Sublist (simplify_ring sq_unit 0) sq_unit ∧
      (simplify_ring sq_unit 0 = [] ∨
        ((simplify_ring sq_unit 0).head? = sq_unit.head? ∧
          (simplify_ring sq_unit 0).getLast? = sq_unit.getLast?))) :=
  ⟨by decide, c6_amended sq_unit (by decide)⟩

/-- C7 counterexample: simplification is NOT idempotent on an open ring. For the
open chain below with tolerance 1 the first pass keeps all four points and closes
the ring; the second pass, now anchored at the closing point, collapses it to a
degenerate 3-point ring. -/
theorem c7_counterexample :
    simplify_ring [(0, 0), (4, 9/10), (10, 0), (8, -1/2)] 1 =
      [(0, 0), (4, 9/10), (10, 0), (8, -1/2), (0, 0)] ∧
    simplify_ring (simplify_ring [(0, 0), (4, 9/10), (10, 0), (8, -1/2)] 1) 1 =
      [(0, 0), (10, 0), (0, 0)] ∧
    simplify_ring (simplify_ring [(0, 0), (4, 9/10), (10, 0), (8, -1/2)] 1) 1 ≠
      simplify_ring [(0, 0), (4, 9/10), (10, 0), (8, -1/2)] 1 := by
  decide

/-- C7 (amended): for every CLOSED ring (first point equals last point) and every
nonnegative tolerance, simplification is idempotent:
`simplify(simplify(ring, t), t) = simplify(ring, t)`. -/
theorem c7_amended (c : List Q2) (t : ℚ) (hc : c.head? = c.getLast?) (ht : 0 ≤ t) :
    simplify_ring (simplify_ring c t) t = simplify_ring c t := by
  have hgj : ∀ l : List Q2, ¬ l.length < 3 → l.head? = l.getLast? →
      to_geojson_ring l = l := by
    intro l h3 hcl
    unfold to_geojson_ring
    rw [if_neg h3, if_neg (not_not_intro hcl)]
  by_cases h3 : (douglas_peucker c t).length < 3
  · have h1 : simplify_ring c t = [] := by
      unfold simplify_ring to_geojson_ring
      rw [if_pos h3]
    rw [h1]
    unfold simplify_ring
    rw [dp_eq_of_le_two (by simp)]
    rfl
  · have hcl : (douglas_peucker c t).head? = (douglas_peucker c t).getLast? := by
      rw [dp_head, dp_last]
      exact hc
    have h1 : simplify_ring c t = douglas_peucker c t := by
      unfold simplify_ring
      exact hgj _ h3 hcl
    rw [h1]
    unfold simplify_ring
    rw [dp_idem t ht c.length c (le_refl _)]
    exact hgj _ h3 hcl

/-- C7 witness: the amended theorem applied to the closed unit-square ring at
tolerance 1. -/
theorem c7_witness :
    sq_unit.head? = sq_unit.getLast? ∧ (0 : ℚ) ≤ 1 ∧
    simplify_ring (simplify_ring sq_unit 1) 1 = simplify_ring sq_unit 1 :=
  ⟨by decide, by norm_num, c7_amended sq_unit 1 (by decide) (by norm_num)⟩

end OsmPV
